import Mathlib

/-!
Verification development for the dbps repository: the photo-album catalog
synchronizer (`album.go`, `photo.go`) and the dependency-aware single-flight
byte cache (`cache/cache.go`, dependency-cascade revision).

Conventions of the shallow embedding:
* Go `time.Time` values are modelled as `Int` unix timestamps (the code only
  compares them with `Before` and formats them with `Unix()`).
* Go `[]byte` is modelled as `List Nat`.
* Go `error` results are modelled as `Option String` / `Option Nat`
  (`none` = nil error).
* External collaborators (the Dropbox listing/download client and the exif
  decoder) are inputs to the model: the listing response is a `MetaResult`
  argument and the outcome of exif extraction for a filename is a
  `String → Option Int` argument.
-/

/-! ### Photo and photoList (photo.go) -/

/-- Metadata for one photo, from `photo.go` (`type Photo struct`).
Timestamps are unix `Int`s. -/
structure Photo where
  Filename        : String
  MimeType        : String
  Size            : Int
  Hash            : String
  DropboxModified : Int
  ExifCreated     : Int
  deriving DecidableEq, Repr

/-- The ordering contract of `sort.Sort(photos)` with `photoList.Less`:
`Less i j = a[j].ExifCreated.Before(a[i].ExifCreated)`, so in the sorted
output every earlier element has an `ExifCreated` no smaller than every later
one.  `photoLe p q` is the "p may precede q" relation used by the model sort. -/
def photoLe (p q : Photo) : Bool :=
  decide (q.ExifCreated ≤ p.ExifCreated)

/-! ### The Dropbox listing entry and the diff step of Album.Load (album.go) -/

/-- One item of the remote directory listing consumed by `Album.Load`
(`entry.Contents` element): path, byte size and the two modification
timestamps (client and server), plus the mime type copied into the Photo. -/
structure DbxEntry where
  path       : String
  bytes      : Int
  mimeType   : String
  clientMtime : Int
  modified   : Int
  deriving DecidableEq, Repr

/-- Go `path.Base`: empty path gives ".", trailing slashes are stripped, the
component after the last slash is kept, and an all-slash path gives "/". -/
def baseName (p : String) : String :=
  if p = "" then "." else
    let cs := p.data.reverse.dropWhile (fun c => c = '/')
    let b := cs.takeWhile (fun c => c ≠ '/')
    if b = [] then "/" else String.mk b.reverse

/-- The fingerprint `Album.Load` computes for a listing entry:
`fmt.Sprintf("%d:%d:%d", e.Bytes, clientModified.Unix(), dropboxModified.Unix())`. -/
def photoHash (e : DbxEntry) : String :=
  toString e.bytes ++ ":" ++ toString e.clientMtime ++ ":" ++ toString e.modified

/-- The fresh `Photo` literal built for a new/changed entry in `Album.Load`:
`ExifCreated` defaults to the client-modified time. -/
def freshPhoto (e : DbxEntry) : Photo :=
  { Filename := baseName e.path
    MimeType := e.mimeType
    Size := e.bytes
    Hash := photoHash e
    DropboxModified := e.modified
    ExifCreated := e.clientMtime }

/-- Effect of `loadExifInfo` on a freshly built photo: when downloading the
original and decoding exif yields a date-time, `ExifCreated` is overwritten;
on any failure the photo keeps its fallback timestamp.  `exif` is the
externally determined outcome per filename. -/
def enrichPhoto (exif : String → Option Int) (p : Photo) : Photo :=
  match exif p.Filename with
  | some t => { p with ExifCreated := t }
  | none => p

/-- The body of the diff loop in `Album.Load` for one listing entry: if no
photo of the same name exists in `photoMap` or its stored hash differs from
the entry's fingerprint, a fresh photo is built (and enriched in parallel) and
the item is dirty; otherwise the old photo is copied forward. -/
def loadEntry (pm : String → Option Photo) (exif : String → Option Int)
    (e : DbxEntry) : Photo × Bool :=
  match pm (baseName e.path) with
  | some old =>
      if old.Hash = photoHash e then (old, false)
      else (enrichPhoto exif (freshPhoto e), true)
  | none => (enrichPhoto exif (freshPhoto e), true)

/-- Observable side effects of one `Album.Load` run, in program order. -/
inductive LoadEvent where
  /-- the Dropbox `Metadata` listing call was issued -/
  | listed : LoadEvent
  /-- the call `a.original.Remove(name)` -/
  | removedOriginal (name : String) : LoadEvent
  /-- the call `a.thumbnail.Remove(name)` -/
  | removedThumb (name : String) : LoadEvent
  /-- the statement `go a.loadExifInfo(...)`: an enrichment fetch for `name` was started -/
  | exifFetch (name : String) : LoadEvent
  deriving DecidableEq, Repr

/-- The three side effects the dirty branch of the diff loop performs for an
item, in order: invalidate the original cache key, invalidate the thumbnail
cache key, start the enrichment fetch. -/
def dirtyEvents (name : String) : List LoadEvent :=
  [LoadEvent.removedOriginal name, LoadEvent.removedThumb name, LoadEvent.exifFetch name]

/-- The side effects of the diff-loop body for one listing entry: the dirty
branch invalidates both cache keys and starts an enrichment fetch, the
copy-forward branch does nothing. -/
def entryEvents (pm : String → Option Photo) (e : DbxEntry) : List LoadEvent :=
  match pm (baseName e.path) with
  | some old =>
      if old.Hash = photoHash e then []
      else dirtyEvents (baseName e.path)
  | none => dirtyEvents (baseName e.path)

/-- One assignment `a.photoMap[p.Filename] = p` of the map-rebuild loop. -/
def buildMapStep (m : String → Option Photo) (p : Photo) : String → Option Photo :=
  Function.update m p.Filename (some p)

/-- Rebuild of the name-indexed map after the diff
(`for _, p := range photos { a.photoMap[p.Filename] = p }`): later photos
overwrite earlier ones of the same filename. -/
def buildMap (l : List Photo) : String → Option Photo :=
  l.foldl buildMapStep (fun _ => none)

/-! ### Album state and Load (album.go) -/

/-- The synchronizer-relevant state of `Album` (the folder name, Dropbox
client and the two content caches are external collaborators). -/
structure Album where
  lastHash  : String
  photoList : List Photo
  photoMap  : String → Option Photo
  loading   : Bool

/-- The state of a freshly constructed `Album` (`NewAlbum`): Go zero values. -/
def albumInit : Album :=
  { lastHash := "", photoList := [], photoMap := fun _ => none, loading := false }

/-- Outcome of the `dropbox.Metadata` call made by `Album.Load`:
a 304 "not modified" error, some other error, or a directory entry carrying
the new revision hash and the folder contents. -/
inductive MetaResult where
  | notModified : MetaResult
  | failed (msg : String) : MetaResult
  | ok (isDir : Bool) (hash : String) (contents : List DbxEntry) : MetaResult

/-- Result of one `Album.Load` call: the returned error (if any), the album
state after the call, and the side effects performed. -/
structure LoadOut where
  res    : Option String
  album  : Album
  events : List LoadEvent

/-- Model of `Album.Load`.  The busy guard is checked first: a load already in
progress returns an error with no listing, no invalidation and no fetch.
Otherwise the listing outcome `m` is examined: 304 is a success no-op, other
listing errors and a non-directory entry abort the run, and on a directory
listing the diff loop runs, the enrichment tasks are joined, the photos are
sorted descending by `ExifCreated`, and the new list/map/hash are swapped in.
The `loading` flag of the returned state is the caller's own flag again
(the deferred reset has run by the time Load returns). -/
def loadAlbum (a : Album) (m : MetaResult) (exif : String → Option Int) : LoadOut :=
  if a.loading then
    { res := some "album: load already in progress", album := a, events := [] }
  else
    match m with
    | MetaResult.notModified =>
        { res := none, album := a, events := [LoadEvent.listed] }
    | MetaResult.failed msg =>
        { res := some ("album: failed to get metadata: " ++ msg), album := a
          events := [LoadEvent.listed] }
    | MetaResult.ok isDir hash contents =>
        if isDir then
          let pairs := contents.map (loadEntry a.photoMap exif)
          let photos := (pairs.map Prod.fst).mergeSort photoLe
          { res := none
            album :=
              { lastHash := hash
                photoList := photos
                photoMap := buildMap photos
                loading := a.loading }
            events := LoadEvent.listed :: contents.flatMap (entryEvents a.photoMap) }
        else
          { res := some "album: provided path was not a directory", album := a
            events := [LoadEvent.listed] }

/-- Model of `Album.Photos`: returns a copy of the photo list; as a value it is the
current `photoList`. -/
def photosOf (a : Album) : List Photo :=
  a.photoList

/-- Model of `Album.FirstPhoto`, which is `return a.photoList[0]`: an unguarded index.  The
embedding returns `none` exactly when the Go expression panics with an
index-out-of-range (empty list); it does not return a Go error value. -/
def firstPhoto (a : Album) : Option Photo :=
  a.photoList[0]?

/-! ### Helper lemmas about buildMap -/

/-- Each binding produced by the map-building fold comes from the initial map
or from a photo of the list whose filename is the key. -/
theorem buildMap_go_spec (l : List Photo) :
    ∀ (m : String → Option Photo) (n : String) (q : Photo),
      (l.foldl buildMapStep m) n = some q →
      m n = some q ∨ (q ∈ l ∧ q.Filename = n) := by
  induction l with
  | nil => exact fun m n q h => Or.inl h
  | cons p rest ih =>
    intro m n q h
    rcases ih _ _ _ h with h1 | h2
    · simp only [buildMapStep] at h1
      by_cases hn : n = p.Filename
      · subst hn
        rw [Function.update_same] at h1
        cases h1
        exact Or.inr ⟨List.mem_cons_self _ _, rfl⟩
      · rw [Function.update_noteq hn] at h1
        exact Or.inl h1
    · exact Or.inr ⟨List.mem_cons_of_mem _ h2.1, h2.2⟩

/-- The map-building fold never drops a binding that is already present. -/
theorem buildMap_go_isSome (l : List Photo) :
    ∀ (m : String → Option Photo) (n : String), (m n).isSome = true →
      ((l.foldl buildMapStep m) n).isSome = true := by
  induction l with
  | nil => exact fun _ _ h => h
  | cons p rest ih =>
    intro m n h
    apply ih
    simp only [buildMapStep]
    by_cases hn : n = p.Filename
    · subst hn
      rw [Function.update_same]
      rfl
    · rw [Function.update_noteq hn]
      exact h

/-- Every photo of the list ends up with a binding for its filename. -/
theorem buildMap_go_mem_isSome (l : List Photo) :
    ∀ (m : String → Option Photo) (p : Photo), p ∈ l →
      ((l.foldl buildMapStep m) p.Filename).isSome
        = true := by
  induction l with
  | nil => intro _ _ h; cases h
  | cons p0 rest ih =>
    intro m p hp
    rcases List.mem_cons.mp hp with h | h
    · subst h
      rw [List.foldl_cons]
      apply buildMap_go_isSome
      simp only [buildMapStep]
      rw [Function.update_same]
      rfl
    · exact ih _ _ h

/-! ### Claim theorems on the Album model -/

/-- C6: if a synchronization run is already in progress (`loading` is set), a
new `Load` call returns the recoverable busy error immediately and leaves the
album state unchanged, performing no listing, no invalidation and no fetch. -/
theorem c6_busy_guard (a : Album) (m : MetaResult) (exif : String → Option Int)
    (h : a.loading = true) :
    (loadAlbum a m exif).res = some "album: load already in progress" ∧
    (loadAlbum a m exif).album = a ∧
    (loadAlbum a m exif).events = [] := by
  simp [loadAlbum, h]

/-- Witness for C6 at a concrete busy album. -/
theorem c6_busy_guard_witness :
    ({ albumInit with loading := true } : Album).loading = true ∧
    ((loadAlbum { albumInit with loading := true } MetaResult.notModified
        (fun _ => none)).res = some "album: load already in progress" ∧
      (loadAlbum { albumInit with loading := true } MetaResult.notModified
        (fun _ => none)).album = { albumInit with loading := true } ∧
      (loadAlbum { albumInit with loading := true } MetaResult.notModified
        (fun _ => none)).events = []) :=
  ⟨rfl, c6_busy_guard _ _ _ rfl⟩

/-- C7: a "not modified" (HTTP 304) listing response makes `Load` return
success while changing nothing: the album state (photoList, photoMap,
lastHash) is untouched, and no fetch and no invalidation occur (only the
listing call itself happened). -/
theorem c7_not_modified_noop (a : Album) (exif : String → Option Int)
    (h : a.loading = false) :
    (loadAlbum a MetaResult.notModified exif).res = none ∧
    (loadAlbum a MetaResult.notModified exif).album = a ∧
    (loadAlbum a MetaResult.notModified exif).events = [LoadEvent.listed] ∧
    ∀ n, LoadEvent.exifFetch n ∉ (loadAlbum a MetaResult.notModified exif).events := by
  simp [loadAlbum, h]

/-- Witness for C7 at a concrete idle album. -/
theorem c7_not_modified_noop_witness :
    (albumInit.loading = false) ∧
    ((loadAlbum albumInit MetaResult.notModified (fun _ => none)).res = none ∧
      (loadAlbum albumInit MetaResult.notModified (fun _ => none)).album = albumInit ∧
      (loadAlbum albumInit MetaResult.notModified (fun _ => none)).events
        = [LoadEvent.listed] ∧
      ∀ n, LoadEvent.exifFetch n
        ∉ (loadAlbum albumInit MetaResult.notModified (fun _ => none)).events) :=
  ⟨rfl, c7_not_modified_noop _ _ rfl⟩

/-- C8: every catalog published by a successful synchronization run has its
photo sequence (as returned by `Photos()`) sorted descending by created
timestamp: each photo's `ExifCreated` is at least that of every later photo. -/
theorem c8_photos_sorted_desc (a : Album) (hash : String) (contents : List DbxEntry)
    (exif : String → Option Int) (h : a.loading = false) :
    List.Sorted (fun p q : Photo => q.ExifCreated ≤ p.ExifCreated)
      (photosOf (loadAlbum a (MetaResult.ok true hash contents) exif).album) := by
  have htrans : ∀ (x y z : Photo), photoLe x y = true → photoLe y z = true →
      photoLe x z = true := by
    intro x y z hxy hyz
    simp only [photoLe, decide_eq_true_eq] at *
    exact le_trans hyz hxy
  have htotal : ∀ (x y : Photo), (photoLe x y || photoLe y x) = true := by
    intro x y
    simp only [photoLe, Bool.or_eq_true, decide_eq_true_eq]
    exact le_total y.ExifCreated x.ExifCreated
  have hp := List.sorted_mergeSort htrans htotal
    ((contents.map (loadEntry a.photoMap exif)).map Prod.fst)
  have hgoal : (photosOf (loadAlbum a (MetaResult.ok true hash contents) exif).album) =
      ((contents.map (loadEntry a.photoMap exif)).map Prod.fst).mergeSort photoLe := by
    simp [photosOf, loadAlbum, h]
  rw [hgoal]
  exact List.Pairwise.imp (by
    intro x y hxy
    simpa only [photoLe, decide_eq_true_eq] using hxy) hp

/-- Witness for C8 at a concrete listing. -/
theorem c8_photos_sorted_desc_witness :
    (albumInit.loading = false) ∧
    List.Sorted (fun p q : Photo => q.ExifCreated ≤ p.ExifCreated)
      (photosOf (loadAlbum albumInit
        (MetaResult.ok true "rev1"
          [{ path := "/a.jpg", bytes := 100, mimeType := "image/jpeg",
             clientMtime := 3, modified := 4 },
           { path := "/b.jpg", bytes := 50, mimeType := "image/jpeg",
             clientMtime := 9, modified := 9 }])
        (fun _ => none)).album) :=
  ⟨rfl, c8_photos_sorted_desc _ _ _ _ rfl⟩

/-- C9: `Album.FirstPhoto` indexes `photoList[0]` unguarded.  On the empty
catalog the access is out of range (a Go runtime panic, `none` here), not a
`NotFound` error result; on a non-empty catalog it returns the first photo of
the ordered sequence. -/
theorem c9_first_photo :
    firstPhoto albumInit = none ∧
    ∀ (a : Album) (p : Photo) (rest : List Photo),
      a.photoList = p :: rest → firstPhoto a = some p := by
  refine ⟨rfl, ?_⟩
  intro a p rest hl
  simp [firstPhoto, hl]

/-- Witness for C9: the non-empty branch applied at a one-photo album. -/
theorem c9_first_photo_witness :
    firstPhoto { albumInit with photoList :=
      [{ Filename := "a.jpg", MimeType := "image/jpeg", Size := 100, Hash := "h1",
         DropboxModified := 5, ExifCreated := 9 }] } =
    some { Filename := "a.jpg", MimeType := "image/jpeg", Size := 100, Hash := "h1",
           DropboxModified := 5, ExifCreated := 9 } :=
  c9_first_photo.2 _ _ [] rfl

/-- C10: after a publishing synchronization run, the name-indexed map and the
ordered list are consistent: every photo of `photoList` has a binding for its
`Filename` in `photoMap` pointing at a photo of the list with that filename,
and every binding of `photoMap` is a photo of the list keyed by its own
filename. -/
theorem c10_map_list_consistent (a : Album) (hash : String)
    (contents : List DbxEntry) (exif : String → Option Int)
    (h : a.loading = false) :
    (loadAlbum a (MetaResult.ok true hash contents) exif).res = none ∧
    (∀ p ∈ (loadAlbum a (MetaResult.ok true hash contents) exif).album.photoList,
      ∃ q, (loadAlbum a (MetaResult.ok true hash contents) exif).album.photoMap
          p.Filename = some q ∧
        q ∈ (loadAlbum a (MetaResult.ok true hash contents) exif).album.photoList ∧
        q.Filename = p.Filename) ∧
    (∀ (n : String) (q : Photo),
      (loadAlbum a (MetaResult.ok true hash contents) exif).album.photoMap n
          = some q →
      q ∈ (loadAlbum a (MetaResult.ok true hash contents) exif).album.photoList ∧
        q.Filename = n) := by
  have hforms :
      (loadAlbum a (MetaResult.ok true hash contents) exif).album.photoList =
        ((contents.map (loadEntry a.photoMap exif)).map Prod.fst).mergeSort photoLe ∧
      (loadAlbum a (MetaResult.ok true hash contents) exif).album.photoMap =
        buildMap (((contents.map (loadEntry a.photoMap exif)).map
          Prod.fst).mergeSort photoLe) ∧
      (loadAlbum a (MetaResult.ok true hash contents) exif).res = none := by
    simp [loadAlbum, h]
  obtain ⟨hl, hm, hr⟩ := hforms
  refine ⟨hr, ?_, ?_⟩
  · intro p hp
    rw [hl] at hp
    have hs := buildMap_go_mem_isSome _ (fun _ => none) p hp
    rw [Option.isSome_iff_exists] at hs
    obtain ⟨q, hq⟩ := hs
    rcases buildMap_go_spec _ _ _ _ hq with hnone | hmem
    · cases hnone
    · refine ⟨q, ?_, ?_, hmem.2⟩
      · rw [hm]
        exact hq
      · rw [hl]
        exact hmem.1
  · intro n q hq
    rw [hm] at hq
    rcases buildMap_go_spec _ _ _ _ hq with hnone | hmem
    · cases hnone
    · rw [hl]
      exact hmem

/-- Witness for C10 at a concrete listing. -/
theorem c10_map_list_consistent_witness :
    (albumInit.loading = false) ∧
    ((loadAlbum albumInit (MetaResult.ok true "rev1"
        [{ path := "/a.jpg", bytes := 100, mimeType := "image/jpeg",
           clientMtime := 3, modified := 4 }]) (fun _ => none)).res = none ∧
      (∀ p ∈ (loadAlbum albumInit (MetaResult.ok true "rev1"
          [{ path := "/a.jpg", bytes := 100, mimeType := "image/jpeg",
             clientMtime := 3, modified := 4 }]) (fun _ => none)).album.photoList,
        ∃ q, (loadAlbum albumInit (MetaResult.ok true "rev1"
            [{ path := "/a.jpg", bytes := 100, mimeType := "image/jpeg",
               clientMtime := 3, modified := 4 }]) (fun _ => none)).album.photoMap
            p.Filename = some q ∧
          q ∈ (loadAlbum albumInit (MetaResult.ok true "rev1"
            [{ path := "/a.jpg", bytes := 100, mimeType := "image/jpeg",
               clientMtime := 3, modified := 4 }]) (fun _ => none)).album.photoList ∧
          q.Filename = p.Filename) ∧
      (∀ (n : String) (q : Photo),
        (loadAlbum albumInit (MetaResult.ok true "rev1"
          [{ path := "/a.jpg", bytes := 100, mimeType := "image/jpeg",
             clientMtime := 3, modified := 4 }]) (fun _ => none)).album.photoMap n
            = some q →
        q ∈ (loadAlbum albumInit (MetaResult.ok true "rev1"
          [{ path := "/a.jpg", bytes := 100, mimeType := "image/jpeg",
             clientMtime := 3, modified := 4 }]) (fun _ => none)).album.photoList ∧
          q.Filename = n)) :=
  ⟨rfl, c10_map_list_consistent _ _ _ _ rfl⟩

/-- C4: in a synchronization run, a listing entry is marked dirty iff no photo
of the same name exists in the previous catalog or its fingerprint (size plus
the two modification timestamps) differs; a clean entry is copied forward
unchanged.  The run's side effects are exactly the per-entry effects: a dirty
entry's cache keys are invalidated and an enrichment fetch is started, a clean
entry causes no invalidation and no fetch. -/
theorem c4_diff_dirty_iff (a : Album) (hash : String) (contents : List DbxEntry)
    (exif : String → Option Int) (h : a.loading = false) :
    (∀ e : DbxEntry,
      ((loadEntry a.photoMap exif e).2 = false ↔
        ∃ old, a.photoMap (baseName e.path) = some old ∧ old.Hash = photoHash e) ∧
      ((loadEntry a.photoMap exif e).2 = false →
        ∃ old, a.photoMap (baseName e.path) = some old ∧
          (loadEntry a.photoMap exif e).1 = old) ∧
      (entryEvents a.photoMap e =
        if (loadEntry a.photoMap exif e).2 then dirtyEvents (baseName e.path)
        else [])) ∧
    (loadAlbum a (MetaResult.ok true hash contents) exif).events =
      LoadEvent.listed :: contents.flatMap (entryEvents a.photoMap) ∧
    (loadAlbum a (MetaResult.ok true hash contents) exif).album.photoList =
      ((contents.map (loadEntry a.photoMap exif)).map Prod.fst).mergeSort photoLe := by
  refine ⟨?_, ?_, ?_⟩
  · intro e
    refine ⟨?_, ?_, ?_⟩
    · cases hpm : a.photoMap (baseName e.path) with
      | none => simp [loadEntry, hpm]
      | some old =>
          by_cases hh : old.Hash = photoHash e
          · simp [loadEntry, hpm, hh]
          · simp only [loadEntry, hpm, if_neg hh]
            constructor
            · intro hfalse
              cases hfalse
            · rintro ⟨old2, hold2, hh2⟩
              cases hold2
              exact absurd hh2 hh
    · cases hpm : a.photoMap (baseName e.path) with
      | none => simp [loadEntry, hpm]
      | some old =>
          by_cases hh : old.Hash = photoHash e
          · intro _
            exact ⟨old, rfl, by simp [loadEntry, hpm, hh]⟩
          · simp [loadEntry, hpm, hh]
    · cases hpm : a.photoMap (baseName e.path) with
      | none => simp [loadEntry, entryEvents, hpm]
      | some old =>
          by_cases hh : old.Hash = photoHash e
          · simp [loadEntry, entryEvents, hpm, hh]
          · simp [loadEntry, entryEvents, hpm, hh]
  · simp [loadAlbum, h]
  · simp [loadAlbum, h]

/-- Witness for C4 at a concrete previous catalog and listing. -/
theorem c4_diff_dirty_iff_witness :
    (albumInit.loading = false) ∧
    ((∀ e : DbxEntry,
      ((loadEntry albumInit.photoMap (fun _ => none) e).2 = false ↔
        ∃ old, albumInit.photoMap (baseName e.path) = some old ∧
          old.Hash = photoHash e) ∧
      ((loadEntry albumInit.photoMap (fun _ => none) e).2 = false →
        ∃ old, albumInit.photoMap (baseName e.path) = some old ∧
          (loadEntry albumInit.photoMap (fun _ => none) e).1 = old) ∧
      (entryEvents albumInit.photoMap e =
        if (loadEntry albumInit.photoMap (fun _ => none) e).2 then
          dirtyEvents (baseName e.path)
        else [])) ∧
    (loadAlbum albumInit (MetaResult.ok true "rev1"
        [{ path := "/a.jpg", bytes := 100, mimeType := "image/jpeg",
           clientMtime := 3, modified := 4 }]) (fun _ => none)).events =
      LoadEvent.listed ::
        [({ path := "/a.jpg", bytes := 100, mimeType := "image/jpeg",
            clientMtime := 3, modified := 4 } : DbxEntry)].flatMap
          (entryEvents albumInit.photoMap) ∧
    (loadAlbum albumInit (MetaResult.ok true "rev1"
        [{ path := "/a.jpg", bytes := 100, mimeType := "image/jpeg",
           clientMtime := 3, modified := 4 }]) (fun _ => none)).album.photoList =
      (([({ path := "/a.jpg", bytes := 100, mimeType := "image/jpeg",
            clientMtime := 3, modified := 4 } : DbxEntry)].map
          (loadEntry albumInit.photoMap (fun _ => none))).map
        Prod.fst).mergeSort photoLe) :=
  ⟨rfl, c4_diff_dirty_iff _ _ _ _ rfl⟩

/-! ### Slice-aliasing model of the catalog swap (album.go, C5)

Go slices alias a backing array; the claim that a published snapshot is never
mutated by a later `Load` is a statement about that aliasing.  Here slice
values are cells of an explicit heap (`Nat`-addressed), `Photos()` allocates a
fresh cell holding a copy of the current list (`make` + `copy`), and `Load`
writes its diff results only into a freshly allocated cell
(`photos := make(photoList, ...)`) which is swapped in at publication. -/

/-- The `Album` state with its `photoList` slice held in an explicit heap of slice
cells: `photoListId` is the address of the published list, `nextId` the next
fresh address. -/
structure AlbumHeap where
  heap        : Nat → List Photo
  photoListId : Nat
  nextId      : Nat
  lastHash    : String
  photoMap    : String → Option Photo
  loading     : Bool

/-- Model of `Album.Photos`: `make` a fresh slice, `copy` the published list into it,
return it.  The returned address is the snapshot the caller holds. -/
def photosSnapshot (a : AlbumHeap) : AlbumHeap × Nat :=
  ({ a with heap := Function.update a.heap a.nextId (a.heap a.photoListId)
            nextId := a.nextId + 1 },
   a.nextId)

/-- Model of `Album.Load` on the slice heap.  All branches that abort leave the heap
untouched; the publishing branch builds the new photo list inside a freshly
allocated cell (`photos := make(...)`; every write of the diff loop and of
the enrichment goroutines targets that fresh cell) and swaps `photoListId`
to it. -/
def loadAlbumHeap (a : AlbumHeap) (m : MetaResult) (exif : String → Option Int) :
    Option String × AlbumHeap :=
  if a.loading then (some "album: load already in progress", a)
  else
    match m with
    | MetaResult.notModified => (none, a)
    | MetaResult.failed msg => (some ("album: failed to get metadata: " ++ msg), a)
    | MetaResult.ok isDir hash contents =>
        if isDir then
          let photos := ((contents.map (loadEntry a.photoMap exif)).map
            Prod.fst).mergeSort photoLe
          (none,
           { heap := Function.update a.heap a.nextId photos
             photoListId := a.nextId
             nextId := a.nextId + 1
             lastHash := hash
             photoMap := buildMap photos
             loading := a.loading })
        else (some "album: provided path was not a directory", a)

/-- C5: a catalog snapshot obtained through `Photos()` before a
synchronization run is never mutated by that run.  `Load` writes noheap cell
that existed before it ran, and the snapshot cell returned by `Photos()`
still holds exactly the pre-run photo list after the run finishes. -/
theorem c5_snapshot_immutable (a : AlbumHeap) (m : MetaResult)
    (exif : String → Option Int) (hwf : a.photoListId < a.nextId) :
    (∀ i < a.nextId, (loadAlbumHeap a m exif).2.heap i = a.heap i) ∧
    ((photosSnapshot a).1.heap (photosSnapshot a).2 = a.heap a.photoListId) ∧
    (∀ res2, res2 = loadAlbumHeap (photosSnapshot a).1 m exif →
      res2.2.heap (photosSnapshot a).2 = a.heap a.photoListId) := by
  have hpres : ∀ (b : AlbumHeap) (i : Nat), i < b.nextId →
      (loadAlbumHeap b m exif).2.heap i = b.heap i := by
    intro b i hi
    by_cases hb : b.loading
    · simp [loadAlbumHeap, hb]
    · cases m with
      | notModified => simp [loadAlbumHeap, hb]
      | failed msg => simp [loadAlbumHeap, hb]
      | ok isDir hash contents =>
          by_cases hd : isDir
          · subst hd
            simp only [loadAlbumHeap, hb, if_false, if_true, Bool.false_eq_true,
              ite_true, ite_false]
            exact Function.update_noteq (Nat.ne_of_lt hi) _ _
          · simp [loadAlbumHeap, hb, hd]
  refine ⟨hpres a, ?_, ?_⟩
  · simp [photosSnapshot, Function.update_same]
  · intro res2 hres2
    subst hres2
    have h1 : (photosSnapshot a).2 < (photosSnapshot a).1.nextId := by
      simp [photosSnapshot]
    rw [hpres _ _ h1]
    simp [photosSnapshot, Function.update_same]

/-- A concrete one-cell album heap used by the C5 witness. -/
def albumHeapA : AlbumHeap :=
  { heap := fun _ => []
    photoListId := 0
    nextId := 1
    lastHash := ""
    photoMap := fun _ => none
    loading := false }

/-- Witness for C5 at a concrete album heap. -/
theorem c5_snapshot_immutable_witness :
    (albumHeapA.photoListId < albumHeapA.nextId) ∧
    ((∀ i < albumHeapA.nextId,
      (loadAlbumHeap albumHeapA MetaResult.notModified (fun _ => none)).2.heap i =
        albumHeapA.heap i) ∧
    ((photosSnapshot albumHeapA).1.heap (photosSnapshot albumHeapA).2 =
      albumHeapA.heap albumHeapA.photoListId) ∧
    (∀ res2, res2 = loadAlbumHeap (photosSnapshot albumHeapA).1
        MetaResult.notModified (fun _ => none) →
      res2.2.heap (photosSnapshot albumHeapA).2 =
        albumHeapA.heap albumHeapA.photoListId)) :=
  ⟨Nat.zero_lt_one,
    c5_snapshot_immutable albumHeapA MetaResult.notModified (fun _ => none)
      Nat.zero_lt_one⟩

/-! ### The dependency-aware byte cache (cache/cache.go, dependency revision)

The cache is generic over its key type: a `CacheKey` is any hashable value
declaring a dependency list (`Dependencies()`).  The embedding is
parameterised by the key type and by the dependency function `deps`.

Sequential read-through `Get` (C3): in a single-threaded execution the
store only ever holds completed successful entries, since `Get` deletes an
entry again before returning when its fetch failed.  The store maps keys to
byte blobs. -/

/-- Model of `Cache.fetch`: look up the fetcher for the key and call it; on a non-nil
error the bytes are dropped (`return []byte{}, err`), otherwise the fetched
bytes are returned.  `fn` is the registered fetcher for the key's type. -/
def cacheFetch {Key : Type} (fn : Key → List Nat × Option String) (key : Key) :
    List Nat × Option String :=
  match (fn key).2 with
  | some e => ([], some e)
  | none => ((fn key).1, none)

/-- One sequential `Cache.Get` call: result `(bytes, err)`, the store after
the call, and whether the fetcher ran.  A hit returns the completed entry; a
miss creates the entry, fetches, and either keeps the entry (success, adding
its bytes to the size gauge) or deletes it again (error). -/
def seqGet {Key : Type} [DecidableEq Key] (fn : Key → List Nat × Option String)
    (store : List (Key × List Nat)) (key : Key) :
    (List Nat × Option String) × List (Key × List Nat) × Bool :=
  match store.lookup key with
  | some b => ((b, none), store, false)
  | none =>
      match cacheFetch fn key with
      | (b, some e) => ((b, some e), store, true)
      | (b, none) => ((b, none), (key, b) :: store, true)

/-- C3: when the fetcher for an uncached key fails, `Get` reports the error
to its caller but does not retain the entry: the store is unchanged, the key
is still absent, and a subsequent `Get` for the same key invokes the fetcher
again (rather than returning a cached failure). -/
theorem c3_error_not_cached {Key : Type} [DecidableEq Key]
    (fn : Key → List Nat × Option String) (store : List (Key × List Nat))
    (key : Key) (e : String)
    (hmiss : store.lookup key = none) (herr : (fn key).2 = some e) :
    (seqGet fn store key).1 = ([], some e) ∧
    (seqGet fn store key).2.1 = store ∧
    (seqGet fn store key).2.2 = true ∧
    (seqGet fn (seqGet fn store key).2.1 key).2.2 = true := by
  have hfetch : cacheFetch fn key = ([], some e) := by
    simp [cacheFetch, herr]
  refine ⟨?_, ?_, ?_, ?_⟩ <;> simp [seqGet, hmiss, hfetch]

/-- Witness for C3: a one-key cache whose fetcher always fails. -/
theorem c3_error_not_cached_witness :
    (([] : List (Nat × List Nat)).lookup 0 = none) ∧
    ((fun _ : Nat => (([] : List Nat), some "boom")) 0).2 = some "boom" ∧
    ((seqGet (fun _ : Nat => (([] : List Nat), some "boom")) [] 0).1
        = ([], some "boom") ∧
      (seqGet (fun _ : Nat => (([] : List Nat), some "boom")) [] 0).2.1 = [] ∧
      (seqGet (fun _ : Nat => (([] : List Nat), some "boom")) [] 0).2.2 = true ∧
      (seqGet (fun _ : Nat => (([] : List Nat), some "boom"))
        (seqGet (fun _ : Nat => (([] : List Nat), some "boom")) [] 0).2.1
          0).2.2 = true) :=
  ⟨rfl, rfl, c3_error_not_cached _ _ _ _ rfl rfl⟩

/-! ### Dependency-cascade invalidation (cache/cache.go: Invalidate)

`Cache.invalidate` deletes the entry for a present key and then scans the
whole map for entries whose `Dependencies()` contain the deleted key,
recursively invalidating each; an absent key is a no-op returning false.
Only the key set of the map determines what is removed, so the embedding
works on the list of cached keys.  The recursion terminates because every
nested call acts on a strictly smaller store; `invGo` makes that measure an
explicit fuel argument, and `cacheInvalidate` supplies fuel `s.length`,
which the lemmas show is always sufficient. -/

/-- Fuelled form of `Cache.invalidate`: if `key` is cached, delete it and run
`invalidateDependents`, i.e. invalidate (at one less fuel) every entry of the
remaining store whose dependency list contains `key`, in store order;
otherwise do nothing. -/
def invGo {Key : Type} [DecidableEq Key] (deps : Key → List Key) :
    Nat → List Key → Key → List Key
  | 0, s, _ => s
  | fuel + 1, s, key =>
      if key ∈ s then
        ((s.erase key).filter (fun k => decide (key ∈ deps k))).foldl
          (fun t k => invGo deps fuel t k) (s.erase key)
      else s

/-- The `invalidateDependents` scan: invalidate each key of `todo` in turn
against the evolving store. -/
def invFold {Key : Type} [DecidableEq Key] (deps : Key → List Key) (fuel : Nat)
    (t : List Key) (todo : List Key) : List Key :=
  todo.foldl (fun u k => invGo deps fuel u k) t

/-- Model of `Cache.Invalidate` on the key set of the store (the fuel `s.length` is
enough for the whole cascade, since every nested call strictly shrinks the
store). -/
def cacheInvalidate {Key : Type} [DecidableEq Key] (deps : Key → List Key)
    (s : List Key) (key : Key) : List Key :=
  invGo deps s.length s key

/-- The boolean result of `Cache.Invalidate`: whether the entry for `key`
itself was present (and hence removed). -/
def cacheInvalidateHit {Key : Type} [DecidableEq Key] (s : List Key)
    (key : Key) : Bool :=
  decide (key ∈ s)

theorem invGo_zero {Key : Type} [DecidableEq Key] (deps : Key → List Key)
    (s : List Key) (key : Key) : invGo deps 0 s key = s := rfl

theorem invGo_succ {Key : Type} [DecidableEq Key] (deps : Key → List Key)
    (fuel : Nat) (s : List Key) (key : Key) :
    invGo deps (fuel + 1) s key =
      if key ∈ s then
        invFold deps fuel (s.erase key)
          ((s.erase key).filter (fun k => decide (key ∈ deps k)))
      else s := rfl

theorem invFold_nil {Key : Type} [DecidableEq Key] (deps : Key → List Key)
    (fuel : Nat) (t : List Key) : invFold deps fuel t [] = t := rfl

theorem invFold_cons {Key : Type} [DecidableEq Key] (deps : Key → List Key)
    (fuel : Nat) (t : List Key) (k : Key) (todo : List Key) :
    invFold deps fuel t (k :: todo) =
      invFold deps fuel (invGo deps fuel t k) todo := rfl

/-- Invalidation only removes entries: the result is a sublist of the store. -/
theorem invGo_sublist {Key : Type} [DecidableEq Key] (deps : Key → List Key) :
    ∀ (fuel : Nat) (s : List Key) (key : Key),
      (invGo deps fuel s key).Sublist s := by
  intro fuel
  induction fuel with
  | zero => intro s key; exact List.Sublist.refl s
  | succ n ih =>
    intro s key
    rw [invGo_succ]
    by_cases hks : key ∈ s
    · rw [if_pos hks]
      have haux : ∀ (todo t : List Key), (invFold deps n t todo).Sublist t := by
        intro todo
        induction todo with
        | nil => intro t; exact List.Sublist.refl t
        | cons k rest ihr =>
            intro t
            rw [invFold_cons]
            exact (ihr _).trans (ih t k)
      exact (haux _ _).trans (List.erase_sublist key s)
    · rw [if_neg hks]

/-- The dependents scan only removes entries. -/
theorem invFold_sublist {Key : Type} [DecidableEq Key] (deps : Key → List Key)
    (fuel : Nat) : ∀ (todo t : List Key), (invFold deps fuel t todo).Sublist t := by
  intro todo
  induction todo with
  | nil => intro t; exact List.Sublist.refl t
  | cons k rest ihr =>
      intro t
      rw [invFold_cons]
      exact (ihr _).trans (invGo_sublist deps fuel t k)

/-- Invalidating an absent key is a no-op (the cascade does not run). -/
theorem invGo_absent {Key : Type} [DecidableEq Key] (deps : Key → List Key)
    (fuel : Nat) (s : List Key) (key : Key) (h : key ∉ s) :
    invGo deps fuel s key = s := by
  cases fuel with
  | zero => rfl
  | succ n => rw [invGo_succ, if_neg h]

/-- A present key is removed by its own invalidation (with any fuel left for
the cascade). -/
theorem invGo_not_mem {Key : Type} [DecidableEq Key] (deps : Key → List Key)
    (fuel : Nat) (s : List Key) (key : Key) (hnd : s.Nodup) :
    key ∉ invGo deps (fuel + 1) s key := by
  by_cases hks : key ∈ s
  · rw [invGo_succ, if_pos hks]
    intro hmem
    have h1 : key ∈ s.erase key := (invFold_sublist deps fuel _ _).subset hmem
    exact ((hnd.mem_erase_iff.mp h1).1) rfl
  · rw [invGo_succ, if_neg hks]
    exact hks

/-- Invalidate removes the entry for the key itself whenever present. -/
theorem cacheInvalidate_not_mem {Key : Type} [DecidableEq Key]
    (deps : Key → List Key) (s : List Key) (key : Key) (hnd : s.Nodup) :
    key ∈ s → key ∉ cacheInvalidate deps s key := by
  intro hks
  unfold cacheInvalidate
  cases hlen : s.length with
  | zero =>
      rw [List.length_eq_zero.mp hlen] at hks
      cases hks
  | succ n =>
      exact invGo_not_mem deps n s key hnd

/-- Every key handed to the dependents scan ends up outside the store:
either its own invalidation removed it, or an earlier cascade already had. -/
theorem invFold_todo_not_mem {Key : Type} [DecidableEq Key]
    (deps : Key → List Key) (fuel : Nat) :
    ∀ (todo t : List Key), t.Nodup → t.length ≤ fuel →
      ∀ k ∈ todo, k ∉ invFold deps fuel t todo := by
  intro todo
  induction todo with
  | nil => intro t _ _ k hk; cases hk
  | cons k0 rest ih =>
      intro t hnd hlen k hk
      rw [invFold_cons]
      rcases List.mem_cons.mp hk with hkk | hkr
      · subst hkk
        by_cases hin : k ∈ t
        · obtain ⟨m, hm⟩ : ∃ m, fuel = m + 1 := by
            have h0 : 0 < t.length := List.length_pos.mpr (by
              intro hemp
              rw [hemp] at hin
              cases hin)
            cases fuel with
            | zero => omega
            | succ m => exact ⟨m, rfl⟩
          subst hm
          intro hmem
          exact invGo_not_mem deps m t k hnd
            ((invFold_sublist deps (m + 1) rest _).subset hmem)
        · intro hmem
          exact hin ((invGo_sublist deps fuel t k).subset
            ((invFold_sublist deps fuel rest _).subset hmem))
      · exact ih (invGo deps fuel t k0)
          ((invGo_sublist deps fuel t k0).nodup hnd)
          (le_trans (invGo_sublist deps fuel t k0).length_le hlen) k hkr

/-- Closure predicate `DepClosed deps t r`: no entry kept in `r` has a dependency that was in
`t` but is missing from `r` — the store left behind never contains an entry
whose dependency was removed. -/
def DepClosed {Key : Type} (deps : Key → List Key) (t r : List Key) : Prop :=
  ∀ c ∈ r, ∀ b ∈ deps c, b ∈ t → b ∈ r

theorem depClosed_refl {Key : Type} (deps : Key → List Key) (t : List Key) :
    DepClosed deps t t :=
  fun _ _ _ _ h => h

theorem depClosed_trans {Key : Type} (deps : Key → List Key)
    {t u r : List Key} (h1 : DepClosed deps t u) (h2 : DepClosed deps u r)
    (hsub : ∀ x ∈ r, x ∈ u) : DepClosed deps t r := by
  intro c hc b hb hbt
  exact h2 c hc b hb (h1 c (hsub c hc) b hb hbt)

/-- Closure of invalidation: with enough fuel, the store left by `invGo`
contains no entry with a removed dependency.  (If an entry `c` survived while
its dependency `b` was removed, the cascade step that removed `b` would have
scanned the store, found `c` still present, and removed it too.) -/
theorem invGo_closed {Key : Type} [DecidableEq Key] (deps : Key → List Key) :
    ∀ (fuel : Nat) (s : List Key) (key : Key), s.Nodup → s.length ≤ fuel →
      DepClosed deps s (invGo deps fuel s key) := by
  intro fuel
  induction fuel with
  | zero =>
      intro s key hnd hlen
      rw [invGo_zero]
      exact depClosed_refl deps s
  | succ n ih =>
      intro s key hnd hlen
      by_cases hks : key ∈ s
      · rw [invGo_succ, if_pos hks]
        have hnd1 : (s.erase key).Nodup := List.Nodup.erase key hnd
        have hlen1 : (s.erase key).length ≤ n := by
          rw [List.length_erase_of_mem hks]
          omega
        have haux : ∀ (todo t : List Key), t.Nodup → t.length ≤ n →
            DepClosed deps t (invFold deps n t todo) := by
          intro todo
          induction todo with
          | nil =>
              intro t _ _
              rw [invFold_nil]
              exact depClosed_refl deps t
          | cons k rest ihr =>
              intro t hndt hlent
              rw [invFold_cons]
              have hsub := invGo_sublist deps n t k
              exact depClosed_trans deps (ih t k hndt hlent)
                (ihr _ (hsub.nodup hndt) (le_trans hsub.length_le hlent))
                (invFold_sublist deps n rest _).subset
        intro c hc b hb hbs
        by_cases hbk : b = key
        · subst hbk
          exfalso
          have hcs1 : c ∈ s.erase b := (invFold_sublist deps n _ _).subset hc
          have hcand : c ∈ (s.erase b).filter (fun k => decide (b ∈ deps k)) :=
            List.mem_filter.mpr ⟨hcs1, by simpa using hb⟩
          exact invFold_todo_not_mem deps n _ (s.erase b) hnd1 hlen1 c hcand hc
        · have hbs1 : b ∈ s.erase key := (List.mem_erase_of_ne hbk).mpr hbs
          exact haux _ _ hnd1 hlen1 c hc b hb hbs1
      · rw [invGo_succ, if_neg hks]
        exact depClosed_refl deps s

/-- Reachability `Reach deps s key k`: there is a dependency chain from `key` to `k`
through entries cached in `s` — `k` is `key` itself, or some cached entry
whose dependency list contains a reachable key (transitively). -/
inductive Reach {Key : Type} (deps : Key → List Key) (s : List Key) (key : Key) :
    Key → Prop where
  | refl : Reach deps s key key
  | step {b c : Key} : Reach deps s key b → c ∈ s → b ∈ deps c →
      Reach deps s key c

theorem Reach.mem_of {Key : Type} {deps : Key → List Key} {s : List Key}
    {key k : Key} (h : Reach deps s key k) (hks : key ∈ s) : k ∈ s := by
  induction h with
  | refl => exact hks
  | step _ hc _ _ => exact hc

theorem Reach.mono {Key : Type} {deps : Key → List Key} {t s : List Key}
    {key k : Key} (hsub : ∀ x ∈ t, x ∈ s) (h : Reach deps t key k) :
    Reach deps s key k := by
  induction h with
  | refl => exact Reach.refl
  | step _ hc hd ih => exact Reach.step ih (hsub _ hc) hd

theorem Reach.trans {Key : Type} {deps : Key → List Key} {s : List Key}
    {a b k : Key} (h1 : Reach deps s a b) (h2 : Reach deps s b k) :
    Reach deps s a k := by
  induction h2 with
  | refl => exact h1
  | step _ hc hd ih => exact Reach.step ih hc hd

/-- Soundness of the cascade: with enough fuel, every entry that invalidation
removes is reachable from the invalidated key along cached dependency chains
(entries not depending on the key, directly or transitively, remain cached). -/
theorem invGo_sound {Key : Type} [DecidableEq Key] (deps : Key → List Key) :
    ∀ (fuel : Nat) (s : List Key) (key : Key), s.Nodup → s.length ≤ fuel →
      ∀ k ∈ s, k ∉ invGo deps fuel s key → Reach deps s key k := by
  intro fuel
  induction fuel with
  | zero =>
      intro s key hnd hlen k hks hkr
      rw [invGo_zero] at hkr
      exact absurd hks hkr
  | succ n ih =>
      intro s key hnd hlen k hks hkr
      by_cases hkey : key ∈ s
      · by_cases hkk : k = key
        · subst hkk
          exact Reach.refl
        · rw [invGo_succ, if_pos hkey] at hkr
          have hnd1 : (s.erase key).Nodup := List.Nodup.erase key hnd
          have hlen1 : (s.erase key).length ≤ n := by
            rw [List.length_erase_of_mem hkey]
            omega
          have hks1 : k ∈ s.erase key := (List.mem_erase_of_ne hkk).mpr hks
          have haux : ∀ (todo t : List Key), t.Nodup → t.length ≤ n →
              ∀ x ∈ t, x ∉ invFold deps n t todo →
                ∃ c ∈ todo, Reach deps t c x := by
            intro todo
            induction todo with
            | nil =>
                intro t _ _ x hx hnx
                rw [invFold_nil] at hnx
                exact absurd hx hnx
            | cons c0 rest ihr =>
                intro t hndt hlent x hx hnx
                rw [invFold_cons] at hnx
                by_cases hx1 : x ∈ invGo deps n t c0
                · have hsub := invGo_sublist deps n t c0
                  obtain ⟨c, hc, hr⟩ := ihr _ (hsub.nodup hndt)
                    (le_trans hsub.length_le hlent) x hx1 hnx
                  exact ⟨c, List.mem_cons_of_mem _ hc, hr.mono hsub.subset⟩
                · exact ⟨c0, List.mem_cons_self _ _, ih t c0 hndt hlent x hx hx1⟩
          obtain ⟨c, hc, hr⟩ := haux _ (s.erase key) hnd1 hlen1 k hks1 hkr
          have hcf := List.mem_filter.mp hc
          have hkdep : key ∈ deps c := by simpa using hcf.2
          have hcs : c ∈ s := (List.erase_sublist key s).subset hcf.1
          have h1 : Reach deps s key c := Reach.step Reach.refl hcs hkdep
          have h2 : Reach deps s c k := hr.mono (List.erase_sublist key s).subset
          exact h1.trans h2
      · rw [invGo_absent deps (n + 1) s key hkey] at hkr
        exact absurd hks hkr

/-- Completeness of the cascade: when the invalidated key is cached, every
entry reachable from it along cached dependency chains is removed. -/
theorem cacheInvalidate_complete {Key : Type} [DecidableEq Key]
    (deps : Key → List Key) (s : List Key) (key : Key) (hnd : s.Nodup)
    (hks : key ∈ s) :
    ∀ k, Reach deps s key k → k ∉ cacheInvalidate deps s key := by
  intro k h
  induction h with
  | refl => exact cacheInvalidate_not_mem deps s key hnd hks
  | step hr hc hd ih =>
      intro hcr
      have hclosed : DepClosed deps s (cacheInvalidate deps s key) :=
        invGo_closed deps s.length s key hnd (le_refl _)
      exact ih (hclosed _ hcr _ hd (hr.mem_of hks))

/-- C2 (amended): when the invalidated key is cached, `Invalidate` removes
exactly the entries reachable from it along cached dependency chains — the
key itself and, transitively, every cached entry depending on a removed
entry (so for a cached chain A→B→C, invalidating A removes B and C), while
entries not transitively depending on the key remain cached.  When the key
is absent, `Invalidate` removes nothing — dependents of an absent key are
kept. -/
theorem c2_invalidate_cascade {Key : Type} [DecidableEq Key]
    (deps : Key → List Key) (s : List Key) (key : Key) (hnd : s.Nodup) :
    (key ∈ s → ∀ k, k ∈ cacheInvalidate deps s key ↔
      (k ∈ s ∧ ¬ Reach deps s key k)) ∧
    (key ∉ s → cacheInvalidate deps s key = s) := by
  constructor
  · intro hks k
    constructor
    · intro hkr
      refine ⟨(invGo_sublist deps s.length s key).subset hkr, ?_⟩
      intro hreach
      exact cacheInvalidate_complete deps s key hnd hks k hreach hkr
    · rintro ⟨hksm, hnr⟩
      by_contra hnot
      exact hnr (invGo_sound deps s.length s key hnd (le_refl _) k hksm hnot)
  · intro hks
    exact invGo_absent deps s.length s key hks

/-- The concrete cache keys registered by the repository: an original photo
(`originalCacheKey{Filename}`, no dependencies) and a thumbnail derived from
it (`thumbCacheKey{Filename, Width, Height}`, depending on its original). -/
inductive DbpsKey where
  | original (filename : String) : DbpsKey
  | thumb (filename : String) (width : Nat) (height : Nat) : DbpsKey
  deriving DecidableEq, Repr

/-- The `Dependencies()` method of the repository's key types. -/
def dbpsDeps : DbpsKey → List DbpsKey
  | DbpsKey.original _ => []
  | DbpsKey.thumb f _ _ => [DbpsKey.original f]

/-- Counterexample to C2 as stated: in a store caching only the thumbnail
for "a.jpg", invalidating the (uncached) original "a.jpg" removes nothing —
the thumbnail stays cached even though its dependency set contains the
invalidated key, because `Cache.invalidate` returns before the cascade when
the key itself is absent. -/
theorem c2_absent_key_counterexample :
    cacheInvalidate dbpsDeps [DbpsKey.thumb "a.jpg" 200 200]
        (DbpsKey.original "a.jpg") = [DbpsKey.thumb "a.jpg" 200 200] ∧
    DbpsKey.original "a.jpg" ∈ dbpsDeps (DbpsKey.thumb "a.jpg" 200 200) ∧
    DbpsKey.original "a.jpg" ∉ [DbpsKey.thumb "a.jpg" 200 200] := by
  refine ⟨?_, ?_, ?_⟩ <;> decide

/-- A three-level dependency chain A→B→C over `Fin 3` (1 depends on 0, 2
depends on 1), the configuration of the transitive-cascade property. -/
def chainDeps : Fin 3 → List (Fin 3)
  | 0 => []
  | 1 => [0]
  | 2 => [1]

/-- Witness for C2 on the cached chain A→B→C: the characterization applies,
and concretely invalidating A empties the store. -/
theorem c2_invalidate_cascade_witness :
    ([0, 1, 2] : List (Fin 3)).Nodup ∧
    (((0 : Fin 3) ∈ [0, 1, 2] → ∀ k, k ∈ cacheInvalidate chainDeps [0, 1, 2] 0 ↔
        (k ∈ [0, 1, 2] ∧ ¬ Reach chainDeps [0, 1, 2] 0 k)) ∧
      ((0 : Fin 3) ∉ [0, 1, 2] → cacheInvalidate chainDeps [0, 1, 2] 0 = [0, 1, 2])) ∧
    cacheInvalidate chainDeps [0, 1, 2] 0 = [] :=
  ⟨by decide, c2_invalidate_cascade chainDeps [0, 1, 2] 0 (by decide), by decide⟩

/-! ### Interleaved executions of Cache.Get (cache/cache.go, C1)

N tasks concurrently call `Get` on the same key of an initially empty cache.
The state machine follows the body of `Get`: the first critical section
(lookup; on a miss, insert a placeholder entry with `wg.Add(1)`), the fetcher
call outside the lock, the entry population plus `wg.Done()`, the second
critical section (delete the map binding on error, add to the size gauge on
success), and the return.  A task that finds an existing entry waits on the
entry's WaitGroup and can only proceed once the entry is populated.

Entries are heap objects that survive deletion of their map binding (waiters
hold pointers), so the model keeps an append-only arena `entries` indexed by
entry id; the map binding for the contended key is `cachedEid`.  Fetcher
executions are numbered globally and their results are given by an `oracle`,
so distinct executions can return distinct results. -/

/-- A fetch result: bytes and an optional error (error code as `Nat`). -/
abbrev FetchRes := List Nat × Option Nat

/-- Where one task is inside its `Get` call. -/
inductive TState where
  /-- about to enter the first critical section -/
  | start : TState
  /-- found entry `eid` in the map; blocked in `entry.wg.Wait()` -/
  | waiting (eid : Nat) : TState
  /-- created placeholder entry `eid`; about to invoke the fetcher -/
  | producing (eid : Nat) : TState
  /-- fetcher call number `fidx` in flight for entry `eid` -/
  | inFetch (eid : Nat) (fidx : Nat) : TState
  /-- entry populated and `wg.Done()` called; second critical section pending -/
  | cleanup (eid : Nat) (fidx : Nat) : TState
  /-- the `Get` call returned `r` -/
  | done (r : FetchRes) : TState
  deriving DecidableEq, Repr

/-- A cache entry: placeholder (WaitGroup counter 1) or populated. -/
inductive EState where
  | pending : EState
  | done (r : FetchRes) : EState
  deriving DecidableEq, Repr

/-- Global state: per-task states, the map binding for the contended key,
the entry arena, the number of fetcher executions started, and the
`cacheSize` gauge. -/
structure CacheSys where
  threads    : List TState
  cachedEid  : Option Nat
  entries    : List EState
  fetchCount : Nat
  size       : Int
  deriving DecidableEq, Repr

/-- Initial state: `n` tasks about to call `Get`, key uncached. -/
def initSys (n : Nat) : CacheSys :=
  { threads := List.replicate n TState.start
    cachedEid := none
    entries := []
    fetchCount := 0
    size := 0 }

/-- One step of task `t`.  `none` means the task cannot move (it is blocked
on a pending entry, or finished, or does not exist). -/
def stepSys (oracle : Nat → FetchRes) (σ : CacheSys) (t : Nat) : Option CacheSys :=
  match σ.threads[t]? with
  | some TState.start =>
      match σ.cachedEid with
      | some eid => some { σ with threads := σ.threads.set t (TState.waiting eid) }
      | none =>
          some { σ with
            threads := σ.threads.set t (TState.producing σ.entries.length)
            entries := σ.entries ++ [EState.pending]
            cachedEid := some σ.entries.length }
  | some (TState.producing eid) =>
      some { σ with
        threads := σ.threads.set t (TState.inFetch eid σ.fetchCount)
        fetchCount := σ.fetchCount + 1 }
  | some (TState.inFetch eid fidx) =>
      some { σ with
        entries := σ.entries.set eid (EState.done (oracle fidx))
        threads := σ.threads.set t (TState.cleanup eid fidx) }
  | some (TState.cleanup _ fidx) =>
      match (oracle fidx).2 with
      | some _ =>
          some { σ with
            threads := σ.threads.set t (TState.done (oracle fidx))
            cachedEid := none }
      | none =>
          some { σ with
            threads := σ.threads.set t (TState.done (oracle fidx))
            size := σ.size + ((oracle fidx).1.length : Int) }
  | some (TState.waiting eid) =>
      match σ.entries[eid]? with
      | some (EState.done r) =>
          some { σ with threads := σ.threads.set t (TState.done r) }
      | _ => none
  | some (TState.done _) => none
  | none => none

/-- Reachability under arbitrary interleaving. -/
inductive SysReach (oracle : Nat → FetchRes) (start0 : CacheSys) : CacheSys → Prop where
  | refl : SysReach oracle start0 start0
  | step {σ σ' : CacheSys} {t : Nat} : SysReach oracle start0 σ →
      stepSys oracle σ t = some σ' → SysReach oracle start0 σ'

/-- Index lookup after `List.set`: either the written slot or the old list. -/
theorem set_lookup {α : Type} {l : List α} {t i : Nat} {x a : α}
    (ht : t < l.length) (h : (l.set t x)[i]? = some a) :
    (i = t ∧ a = x) ∨ (i ≠ t ∧ l[i]? = some a) := by
  by_cases hit : i = t
  · subst hit
    rw [List.getElem?_set_self ht] at h
    exact Or.inl ⟨rfl, (Option.some.inj h).symm⟩
  · rw [List.getElem?_set_ne (Ne.symm hit)] at h
    exact Or.inr ⟨hit, h⟩

theorem getElem?_some_pos {α : Type} {l : List α} {i : Nat} {a : α}
    (h : l[i]? = some a) : i < l.length :=
  (List.getElem?_eq_some.mp h).1

/-- Per-task invariant of the contended-key system, in the success regime
(the one fetch that happens is fetch number 0 on entry 0). -/
def ThreadInv (oracle : Nat → FetchRes) (σ : CacheSys) : TState → Prop
  | TState.start => True
  | TState.waiting eid => eid = 0
  | TState.producing eid =>
      eid = 0 ∧ σ.fetchCount = 0 ∧ σ.entries[0]? = some EState.pending
  | TState.inFetch eid fidx =>
      eid = 0 ∧ fidx = 0 ∧ σ.fetchCount = 1 ∧
        σ.entries[0]? = some EState.pending
  | TState.cleanup eid fidx =>
      eid = 0 ∧ fidx = 0 ∧ σ.fetchCount = 1 ∧
        σ.entries[0]? = some (EState.done (oracle 0))
  | TState.done r => r = oracle 0 ∧ σ.fetchCount = 1

/-- Tasks between placeholder creation and fetch return ("producer-ish"). -/
def isPI : TState → Bool
  | TState.producing _ => true
  | TState.inFetch _ _ => true
  | _ => false

/-- The global invariant: at most one entry is ever created, at most one
fetch ever starts, the map binding (if any) is entry 0, a populated entry
holds the first fetch's result, every task satisfies its per-state invariant,
and at most one task is producing/fetching at a time. -/
structure SysInvS (oracle : Nat → FetchRes) (σ : CacheSys) : Prop where
  entries_le : σ.entries.length ≤ 1
  fetch_le : σ.fetchCount ≤ 1
  empty_inv : σ.entries.length = 0 → σ.cachedEid = none ∧ σ.fetchCount = 0 ∧
    ∀ (i : Nat) (ts : TState), σ.threads[i]? = some ts → ts = TState.start
  cached_inv : ∀ e, σ.cachedEid = some e → e = 0 ∧ σ.entries.length = 1
  nonempty_cached : σ.entries.length = 1 → σ.cachedEid = some 0
  thread_inv : ∀ (i : Nat) (ts : TState), σ.threads[i]? = some ts →
    ThreadInv oracle σ ts
  entry_done_inv : ∀ r, σ.entries[0]? = some (EState.done r) →
    r = oracle 0 ∧ σ.fetchCount = 1
  pi_unique : ∀ (i j : Nat) (tsi tsj : TState), σ.threads[i]? = some tsi →
    σ.threads[j]? = some tsj → isPI tsi = true → isPI tsj = true → i = j

/-- The initial state satisfies the invariant. -/
theorem sysInv_init (oracle : Nat → FetchRes) (n : Nat) :
    SysInvS oracle (initSys n) := by
  refine ⟨?_, ?_, ?_, ?_, ?_, ?_, ?_, ?_⟩
  · simp [initSys]
  · simp [initSys]
  · intro _
    refine ⟨rfl, rfl, ?_⟩
    intro i ts h
    simp only [initSys, List.getElem?_replicate] at h
    by_cases hi : i < n
    · rw [if_pos hi] at h
      exact (Option.some.inj h).symm
    · rw [if_neg hi] at h
      cases h
  · intro e he
    simp only [initSys] at he
    cases he
  · intro h
    simp [initSys] at h
  · intro i ts h
    simp only [initSys, List.getElem?_replicate] at h
    by_cases hi : i < n
    · rw [if_pos hi] at h
      rw [← Option.some.inj h]
      trivial
    · rw [if_neg hi] at h
      cases h
  · intro r h
    simp [initSys] at h
  · intro i j tsi tsj hi hj hpi _
    simp only [initSys, List.getElem?_replicate] at hi
    by_cases hii : i < n
    · rw [if_pos hii] at hi
      rw [← Option.some.inj hi] at hpi
      simp [isPI] at hpi
    · rw [if_neg hii] at hi
      cases hi

/-- Preservation: in the success regime (fetch 0 returns a nil error), every
step of any task preserves the invariant. -/
theorem sysInv_step (oracle : Nat → FetchRes) (h0 : (oracle 0).2 = none)
    (σ σ' : CacheSys) (t : Nat) (hstep : stepSys oracle σ t = some σ')
    (hinv : SysInvS oracle σ) : SysInvS oracle σ' := by
  unfold stepSys at hstep
  cases hts : σ.threads[t]? with
  | none => rw [hts] at hstep; simp at hstep
  | some ts =>
      rw [hts] at hstep
      have htlt : t < σ.threads.length := getElem?_some_pos hts
      cases ts with
      | start =>
          cases hce : σ.cachedEid with
          | some eid =>
              obtain ⟨he0, hlen1⟩ := hinv.cached_inv eid hce
              subst he0
              rw [hce] at hstep
              simp only [Option.some.injEq] at hstep
              subst hstep
              refine ⟨hinv.entries_le, hinv.fetch_le, ?_, ?_, ?_,
                ?_, hinv.entry_done_inv, ?_⟩
              · intro hl0
                obtain ⟨hcnone, _, _⟩ := hinv.empty_inv hl0
                rw [hce] at hcnone
                cases hcnone
              · intro e he
                exact ⟨(Option.some.inj he).symm, hlen1⟩
              · intro _
                rfl
              · intro i ts2 hts2
                rcases set_lookup htlt hts2 with ⟨hieq, rfl⟩ | ⟨hine, hold⟩
                · exact rfl
                · have h2 := hinv.thread_inv i ts2 hold
                  cases ts2 <;> exact h2
              · intro i j tsi tsj hi hj hpi hpj
                rcases set_lookup htlt hi with ⟨hieq, rfl⟩ | ⟨hine, hiold⟩
                · simp [isPI] at hpi
                · rcases set_lookup htlt hj with ⟨hjeq, rfl⟩ | ⟨hjne, hjold⟩
                  · simp [isPI] at hpj
                  · exact hinv.pi_unique i j _ _ hiold hjold hpi hpj
          | none =>
              have hlen0 : σ.entries.length = 0 := by
                by_cases hl : σ.entries.length = 1
                · have hsome := hinv.nonempty_cached hl
                  rw [hce] at hsome
                  cases hsome
                · have hle := hinv.entries_le
                  omega
              have hnil : σ.entries = [] := List.length_eq_zero.mp hlen0
              obtain ⟨_, hfc0, hall⟩ := hinv.empty_inv hlen0
              rw [hce] at hstep
              simp only [Option.some.injEq] at hstep
              subst hstep
              rw [hnil]
              simp only [List.length_nil, List.nil_append]
              refine ⟨?_, ?_, ?_, ?_, ?_, ?_, ?_, ?_⟩
              · exact le_refl 1
              · show σ.fetchCount ≤ 1
                omega
              · intro hl1
                simp at hl1
              · intro e he
                exact ⟨(Option.some.inj he).symm, rfl⟩
              · intro _
                rfl
              · intro i ts2 hts2
                rcases set_lookup htlt hts2 with ⟨hieq, rfl⟩ | ⟨hine, hold⟩
                · exact ⟨rfl, hfc0, rfl⟩
                · have hstart := hall i ts2 hold
                  subst hstart
                  trivial
              · intro r hr
                simp at hr
              · intro i j tsi tsj hi hj hpi hpj
                rcases set_lookup htlt hi with ⟨hieq, rfl⟩ | ⟨hine, hiold⟩
                · rcases set_lookup htlt hj with ⟨hjeq, rfl⟩ | ⟨hjne, hjold⟩
                  · rw [hieq, hjeq]
                  · have hstart := hall j tsj hjold
                    subst hstart
                    simp [isPI] at hpj
                · have hstart := hall i tsi hiold
                  subst hstart
                  simp [isPI] at hpi
      | producing eid =>
          obtain ⟨he0, hfc0, hpend⟩ := hinv.thread_inv t _ hts
          subst he0
          simp only [Option.some.injEq] at hstep
          subst hstep
          refine ⟨hinv.entries_le, ?_, ?_, hinv.cached_inv,
            hinv.nonempty_cached, ?_, ?_, ?_⟩
          · show σ.fetchCount + 1 ≤ 1
            omega
          · intro hl0
            have hpos := getElem?_some_pos hpend
            have hl0x : σ.entries.length = 0 := hl0
            exact absurd hl0x (by omega)
          · intro i ts2 hts2
            rcases set_lookup htlt hts2 with ⟨hieq, rfl⟩ | ⟨hine, hold⟩
            · refine ⟨rfl, hfc0, ?_, hpend⟩
              show σ.fetchCount + 1 = 1
              omega
            · have h2 := hinv.thread_inv i ts2 hold
              cases ts2 with
              | start => trivial
              | waiting eid2 => exact h2
              | producing eid2 =>
                  exact absurd (hinv.pi_unique i t _ _ hold hts rfl rfl) hine
              | inFetch eid2 f2 =>
                  exact absurd (hinv.pi_unique i t _ _ hold hts rfl rfl) hine
              | cleanup eid2 f2 =>
                  obtain ⟨_, _, hfc1, _⟩ := h2
                  exact absurd hfc1 (by omega)
              | done r =>
                  obtain ⟨_, hfc1⟩ := h2
                  exact absurd hfc1 (by omega)
          · intro r hr
            rw [hpend] at hr
            simp at hr
          · intro i j tsi tsj hi hj hpi hpj
            rcases set_lookup htlt hi with ⟨hieq, rfl⟩ | ⟨hine, hiold⟩
            · rcases set_lookup htlt hj with ⟨hjeq, rfl⟩ | ⟨hjne, hjold⟩
              · rw [hieq, hjeq]
              · exact absurd (hinv.pi_unique j t _ _ hjold hts hpj rfl) hjne
            · rcases set_lookup htlt hj with ⟨hjeq, rfl⟩ | ⟨hjne, hjold⟩
              · exact absurd (hinv.pi_unique i t _ _ hiold hts hpi rfl) hine
              · exact hinv.pi_unique i j _ _ hiold hjold hpi hpj
      | inFetch eid fidx =>
          obtain ⟨he0, hf0, hfc1, hpend⟩ := hinv.thread_inv t _ hts
          subst he0
          subst hf0
          simp only [Option.some.injEq] at hstep
          subst hstep
          have hpos : 0 < σ.entries.length := getElem?_some_pos hpend
          have hent2 : (σ.entries.set 0 (EState.done (oracle 0)))[0]? =
              some (EState.done (oracle 0)) := List.getElem?_set_self hpos
          refine ⟨?_, hinv.fetch_le, ?_, ?_, ?_, ?_, ?_, ?_⟩
          · show (σ.entries.set 0 (EState.done (oracle 0))).length ≤ 1
            rw [List.length_set]
            exact hinv.entries_le
          · intro hl0
            rw [List.length_set] at hl0
            have hpos : 0 < σ.entries.length := getElem?_some_pos hpend
            exact absurd hl0 (by omega)
          · intro e he
            obtain ⟨he2, hl1⟩ := hinv.cached_inv e he
            refine ⟨he2, ?_⟩
            rw [List.length_set]
            exact hl1
          · intro hl1
            rw [List.length_set] at hl1
            exact hinv.nonempty_cached hl1
          · intro i ts2 hts2
            rcases set_lookup htlt hts2 with ⟨hieq, rfl⟩ | ⟨hine, hold⟩
            · exact ⟨rfl, rfl, hfc1, hent2⟩
            · have h2 := hinv.thread_inv i ts2 hold
              cases ts2 with
              | start => trivial
              | waiting eid2 => exact h2
              | producing eid2 =>
                  obtain ⟨_, hfc0, _⟩ := h2
                  exact absurd hfc0 (by omega)
              | inFetch eid2 f2 =>
                  exact absurd (hinv.pi_unique i t _ _ hold hts rfl rfl) hine
              | cleanup eid2 f2 =>
                  obtain ⟨_, _, _, hdone2⟩ := h2
                  rw [hpend] at hdone2
                  simp at hdone2
              | done r => exact h2
          · intro r hr
            rw [hent2] at hr
            simp only [Option.some.injEq, EState.done.injEq] at hr
            exact ⟨hr.symm, hfc1⟩
          · intro i j tsi tsj hi hj hpi hpj
            rcases set_lookup htlt hi with ⟨hieq, rfl⟩ | ⟨hine, hiold⟩
            · simp [isPI] at hpi
            · rcases set_lookup htlt hj with ⟨hjeq, rfl⟩ | ⟨hjne, hjold⟩
              · simp [isPI] at hpj
              · exact hinv.pi_unique i j _ _ hiold hjold hpi hpj
      | cleanup eid fidx =>
          obtain ⟨he0, hf0, hfc1, hdone⟩ := hinv.thread_inv t _ hts
          subst he0
          subst hf0
          simp only [h0, Option.some.injEq] at hstep
          subst hstep
          refine ⟨hinv.entries_le, hinv.fetch_le, ?_, hinv.cached_inv,
            hinv.nonempty_cached, ?_, hinv.entry_done_inv, ?_⟩
          · intro hl0
            have hpos := getElem?_some_pos hdone
            have hl0x : σ.entries.length = 0 := hl0
            exact absurd hl0x (by omega)
          · intro i ts2 hts2
            rcases set_lookup htlt hts2 with ⟨hieq, rfl⟩ | ⟨hine, hold⟩
            · exact ⟨rfl, hfc1⟩
            · have h2 := hinv.thread_inv i ts2 hold
              cases ts2 <;> exact h2
          · intro i j tsi tsj hi hj hpi hpj
            rcases set_lookup htlt hi with ⟨hieq, rfl⟩ | ⟨hine, hiold⟩
            · simp [isPI] at hpi
            · rcases set_lookup htlt hj with ⟨hjeq, rfl⟩ | ⟨hjne, hjold⟩
              · simp [isPI] at hpj
              · exact hinv.pi_unique i j _ _ hiold hjold hpi hpj
      | waiting eid =>
          have he0 : eid = 0 := hinv.thread_inv t _ hts
          subst he0
          cases hent : σ.entries[0]? with
          | none => simp [hent] at hstep
          | some es =>
              cases es with
              | pending => simp [hent] at hstep
              | done r =>
                  obtain ⟨hro, hfc1⟩ := hinv.entry_done_inv r hent
                  simp only [hent, Option.some.injEq] at hstep
                  subst hstep
                  refine ⟨hinv.entries_le, hinv.fetch_le, ?_, hinv.cached_inv,
                    hinv.nonempty_cached, ?_, hinv.entry_done_inv, ?_⟩
                  · intro hl0
                    have hpos := getElem?_some_pos hent
                    have hl0x : σ.entries.length = 0 := hl0
                    exact absurd hl0x (by omega)
                  · intro i ts2 hts2
                    rcases set_lookup htlt hts2 with ⟨hieq, rfl⟩ | ⟨hine, hold⟩
                    · exact ⟨hro, hfc1⟩
                    · have h2 := hinv.thread_inv i ts2 hold
                      cases ts2 <;> exact h2
                  · intro i j tsi tsj hi hj hpi hpj
                    rcases set_lookup htlt hi with ⟨hieq, rfl⟩ | ⟨hine, hiold⟩
                    · simp [isPI] at hpi
                    · rcases set_lookup htlt hj with ⟨hjeq, rfl⟩ | ⟨hjne, hjold⟩
                      · simp [isPI] at hpj
                      · exact hinv.pi_unique i j _ _ hiold hjold hpi hpj
      | done r => simp at hstep

/-- Every reachable state of the contended-key system satisfies the invariant
(success regime: the first fetch returns a nil error). -/
theorem sysInv_reach (oracle : Nat → FetchRes) (h0 : (oracle 0).2 = none)
    (n : Nat) (σ : CacheSys) (h : SysReach oracle (initSys n) σ) :
    SysInvS oracle σ := by
  induction h with
  | refl => exact sysInv_init oracle n
  | step hr hs ih => exact sysInv_step oracle h0 _ _ _ hs ih

/-- C1 (amended): for N concurrent `Get` calls on the same uncached key,
when the producing fetch succeeds, the fetcher executes at most once overall
and exactly once by the time any call returns; every returned call observes
the producer's result (fetch number 0); and a waiting caller is blocked until
the entry is populated — whenever it can take a step it observes the
completed entry and returns the producer's result. -/
theorem c1_single_flight_success (oracle : Nat → FetchRes) (n : Nat)
    (σ : CacheSys) (h0 : (oracle 0).2 = none)
    (hreach : SysReach oracle (initSys n) σ) :
    σ.fetchCount ≤ 1 ∧
    (∀ (t : Nat) (r : FetchRes), σ.threads[t]? = some (TState.done r) →
      r = oracle 0 ∧ σ.fetchCount = 1) ∧
    (∀ (t eid : Nat) (σ2 : CacheSys),
      σ.threads[t]? = some (TState.waiting eid) →
      stepSys oracle σ t = some σ2 →
      σ.entries[eid]? = some (EState.done (oracle 0)) ∧
      σ2.threads[t]? = some (TState.done (oracle 0))) := by
  have hinv := sysInv_reach oracle h0 n σ hreach
  refine ⟨hinv.fetch_le, ?_, ?_⟩
  · intro t r ht
    exact hinv.thread_inv t _ ht
  · intro t eid σ2 ht hstep
    have htlt : t < σ.threads.length := getElem?_some_pos ht
    have he0 : eid = 0 := hinv.thread_inv t _ ht
    subst he0
    unfold stepSys at hstep
    rw [ht] at hstep
    cases hent : σ.entries[0]? with
    | none => simp [hent] at hstep
    | some es =>
        cases es with
        | pending => simp [hent] at hstep
        | done r =>
            obtain ⟨hro, _⟩ := hinv.entry_done_inv r hent
            subst hro
            simp only [hent, Option.some.injEq] at hstep
            subst hstep
            exact ⟨rfl, List.getElem?_set_self htlt⟩

/-- A fetcher whose every execution succeeds with bytes `[5]`. -/
def oracleConst : Nat → FetchRes := fun _ => ([5], none)

/-- Witness for C1 at three tasks and the initial state. -/
theorem c1_single_flight_success_witness :
    (oracleConst 0).2 = none ∧
    ((initSys 3).fetchCount ≤ 1 ∧
    (∀ (t : Nat) (r : FetchRes),
      (initSys 3).threads[t]? = some (TState.done r) →
      r = oracleConst 0 ∧ (initSys 3).fetchCount = 1) ∧
    (∀ (t eid : Nat) (σ2 : CacheSys),
      (initSys 3).threads[t]? = some (TState.waiting eid) →
      stepSys oracleConst (initSys 3) t = some σ2 →
      (initSys 3).entries[eid]? = some (EState.done (oracleConst 0)) ∧
      σ2.threads[t]? = some (TState.done (oracleConst 0)))) :=
  ⟨rfl, c1_single_flight_success oracleConst 3 (initSys 3) rfl SysReach.refl⟩

/-- Deterministic replay of a schedule (list of task ids to step). -/
def runSched (oracle : Nat → FetchRes) : CacheSys → List Nat → Option CacheSys
  | σ, [] => some σ
  | σ, t :: rest =>
      match stepSys oracle σ t with
      | some σ2 => runSched oracle σ2 rest
      | none => none

/-- A successful schedule replay only visits reachable states. -/
theorem runSched_reach (oracle : Nat → FetchRes) :
    ∀ (sch : List Nat) (σ σ2 : CacheSys), runSched oracle σ sch = some σ2 →
      ∀ start0 : CacheSys, SysReach oracle start0 σ →
        SysReach oracle start0 σ2 := by
  intro sch
  induction sch with
  | nil =>
      intro σ σ2 h start0 hr
      exact (Option.some.inj h) ▸ hr
  | cons t rest ih =>
      intro σ σ2 h start0 hr
      cases hs : stepSys oracle σ t with
      | none =>
          simp only [runSched, hs] at h
          exact Option.noConfusion h
      | some σ1 =>
          simp only [runSched, hs] at h
          exact ih σ1 σ2 h start0 (SysReach.step hr hs)

/-- A fetcher whose first execution fails with error 7 and whose second
succeeds with bytes `[42]`. -/
def oracleCex : Nat → FetchRes :=
  fun n => if n = 0 then ([], some 7) else ([42], none)

/-- Final state of the two-task counterexample interleaving. -/
def cexFinal : CacheSys :=
  { threads := [TState.done ([], some 7), TState.done ([42], none)]
    cachedEid := some 1
    entries := [EState.done ([], some 7), EState.done ([42], none)]
    fetchCount := 2
    size := 1 }

/-- Counterexample to C1 as stated: two concurrent `Get` calls on the same
uncached key can execute the fetcher twice and observe different results.
In the exhibited interleaving the first caller's fetch fails and the entry is
evicted before the second caller's map lookup, so the second caller becomes a
fresh producer: fetchCount reaches 2 and the callers return different
(bytes, error) pairs. -/
theorem c1_two_fetch_counterexample :
    SysReach oracleCex (initSys 2) cexFinal ∧
    cexFinal.fetchCount = 2 ∧
    cexFinal.threads[0]? = some (TState.done ([], some 7)) ∧
    cexFinal.threads[1]? = some (TState.done ([42], none)) ∧
    (([], some 7) : FetchRes) ≠ ([42], none) := by
  refine ⟨?_, rfl, rfl, rfl, by decide⟩
  have hrun : runSched oracleCex (initSys 2) [0, 0, 0, 0, 1, 1, 1, 1]
      = some cexFinal := by decide
  exact runSched_reach oracleCex _ _ _ hrun _ SysReach.refl
